import Mathlib

/-!
Verification development for the gift-recommendation backend.

The definitions below are a shallow embedding of the Python sources:

* `RateLimiter` embeds `app/rate_limiter.py`.  Timestamps are modelled as
  integers (seconds); the Supabase usage table is modelled as an explicit
  list of records, and a failing store is modelled by an `Except` value:
  when the store errors, the query inside `get_hourly_token_usage` raises
  (caught by its own handler, returning 0) and the oldest-record query
  inside `check_rate_limit` raises (caught by the outer handler, which
  admits the request).  The `utcnow()` calls are modelled by a single
  `now` parameter.
-/

namespace RateLimiter

/-- One row of the `token_usage` table (a `ClientUsageRecord`). -/
structure UsageRecord where
  ip_address : String
  tokens_used : Int
  timestamp : Int
deriving DecidableEq, Repr

/-- `HOURLY_TOKEN_LIMIT` from `app/rate_limiter.py` (env default 10000). -/
def HOURLY_TOKEN_LIMIT : Int := 10000

/-- `RATE_LIMIT_WINDOW_SECONDS` from `app/rate_limiter.py` (env default 3600). -/
def RATE_LIMIT_WINDOW_SECONDS : Int := 3600

/-- The filter applied by the Supabase queries in `get_hourly_token_usage`
and `check_rate_limit`: same ip, and `timestamp >= now - window`. -/
def in_window (now : Int) (ip_address : String) (r : UsageRecord) : Bool :=
  r.ip_address == ip_address && decide (now - RATE_LIMIT_WINDOW_SECONDS ≤ r.timestamp)

/-- Embeds `get_hourly_token_usage`: sums `tokens_used` over all records for
the client in the trailing window; on a store error its own handler returns 0. -/
def get_hourly_token_usage (store : Except Unit (List UsageRecord))
    (ip_address : String) (now : Int) : Int :=
  match store with
  | .error _ => 0
  | .ok records =>
      ((records.filter (in_window now ip_address)).map (fun r => r.tokens_used)).sum

/-- The tuple returned by `check_rate_limit`: `(is_allowed, tokens_used, reset_time)`. -/
structure RateLimitDecision where
  is_allowed : Bool
  tokens_used : Int
  reset_time : Int
deriving DecidableEq, Repr

/-- Embeds `check_rate_limit`.  On a working store: `tokens_used` is the
window sum, the reset time is the oldest in-window timestamp plus the window
(or `now + window` when no record qualifies; the source obtains the oldest
record by ordering the filtered query ascending with limit 1), and the
request is allowed iff `tokens_used < HOURLY_TOKEN_LIMIT`.  On a store error
the outer `except` handler allows the request with `tokens_used = 0`. -/
def check_rate_limit (store : Except Unit (List UsageRecord))
    (ip_address : String) (now : Int) : RateLimitDecision :=
  match store with
  | .error _ =>
      { is_allowed := true, tokens_used := 0,
        reset_time := now + RATE_LIMIT_WINDOW_SECONDS }
  | .ok records =>
      let tokens_used := get_hourly_token_usage store ip_address now
      let window := records.filter (in_window now ip_address)
      let reset_time :=
        match (window.map (fun r => r.timestamp)).min? with
        | some t => t + RATE_LIMIT_WINDOW_SECONDS
        | none => now + RATE_LIMIT_WINDOW_SECONDS
      { is_allowed := decide (tokens_used < HOURLY_TOKEN_LIMIT),
        tokens_used := tokens_used,
        reset_time := reset_time }

/-- The sum of recorded token units for a client inside the trailing window,
written independently of `get_hourly_token_usage`. -/
def window_tokens (records : List UsageRecord) (ip_address : String) (now : Int) : Int :=
  ((records.filter (in_window now ip_address)).map (fun r => r.tokens_used)).sum

end RateLimiter

namespace RateLimiter

/-- C1: the rate gate admits a request iff the sum of recorded token units
for that client with timestamp in the trailing 3600s window is strictly less
than the 10000 budget, and it reports that sum as `tokens_used`; in
particular a client with 9800 in-window units is admitted, and after 500
more units a later check in the same window is denied with
`tokens_used = 10300`. -/
theorem check_rate_limit_admits_iff_under_budget :
    (∀ (records : List UsageRecord) (ip_address : String) (now : Int),
        ((check_rate_limit (.ok records) ip_address now).is_allowed = true ↔
          window_tokens records ip_address now < HOURLY_TOKEN_LIMIT) ∧
        (check_rate_limit (.ok records) ip_address now).tokens_used =
          window_tokens records ip_address now) ∧
    (check_rate_limit (.ok [⟨"client", 9800, 1000⟩]) "client" 1500).is_allowed = true ∧
    (check_rate_limit (.ok [⟨"client", 9800, 1000⟩, ⟨"client", 500, 1500⟩])
        "client" 2000).is_allowed = false ∧
    (check_rate_limit (.ok [⟨"client", 9800, 1000⟩, ⟨"client", 500, 1500⟩])
        "client" 2000).tokens_used = 10300 := by
  refine ⟨fun records ip_address now => ?_, by decide, by decide, by decide⟩
  constructor
  · simp [check_rate_limit, get_hourly_token_usage, window_tokens]
  · simp [check_rate_limit, get_hourly_token_usage, window_tokens]

/-- C6: if the usage-store read raises during the rate-limit check, the gate
fails open: `check_rate_limit` reports the request as allowed for every
client identity. -/
theorem check_rate_limit_fails_open :
    ∀ (ip_address : String) (now : Int),
      (check_rate_limit (.error ()) ip_address now).is_allowed = true := by
  intro ip_address now
  rfl

/-- C8: when the gate denies a request, the reported reset time is the
timestamp of the oldest in-window usage record plus the 3600s window when
an in-window record exists for the client, and `now` plus the window
otherwise. -/
theorem check_rate_limit_reset_time (records : List UsageRecord)
    (ip_address : String) (now : Int)
    (hdenied : (check_rate_limit (.ok records) ip_address now).is_allowed = false) :
    ((∀ r ∈ records, in_window now ip_address r = false) →
        (check_rate_limit (.ok records) ip_address now).reset_time =
          now + RATE_LIMIT_WINDOW_SECONDS) ∧
    (∀ r ∈ records, in_window now ip_address r = true →
        ∃ r0 ∈ records, in_window now ip_address r0 = true ∧
          (∀ r1 ∈ records, in_window now ip_address r1 = true →
              r0.timestamp ≤ r1.timestamp) ∧
          (check_rate_limit (.ok records) ip_address now).reset_time =
            r0.timestamp + RATE_LIMIT_WINDOW_SECONDS) := by
  clear hdenied
  constructor
  · intro hnone
    have hfilter : records.filter (in_window now ip_address) = [] := by
      simp only [List.filter_eq_nil_iff]
      intro r hr
      simp [hnone r hr]
    simp [check_rate_limit, hfilter]
  · intro r hr hwin
    have hmem : r.timestamp ∈ (records.filter (in_window now ip_address)).map
        (fun s => s.timestamp) :=
      List.mem_map_of_mem _ (List.mem_filter.mpr ⟨hr, hwin⟩)
    have hsome : ((records.filter (in_window now ip_address)).map
        (fun s => s.timestamp)).min?.isSome :=
      List.isSome_min?_of_mem hmem
    obtain ⟨t, ht⟩ := Option.isSome_iff_exists.mp hsome
    have htmem : t ∈ (records.filter (in_window now ip_address)).map
        (fun s => s.timestamp) :=
      List.min?_mem (fun a b => min_choice a b) ht
    obtain ⟨r0, hr0mem, hr0t⟩ := List.mem_map.mp htmem
    have hr0rec := List.mem_filter.mp hr0mem
    refine ⟨r0, hr0rec.1, hr0rec.2, ?_, ?_⟩
    · intro r1 hr1 hwin1
      have hle := (List.le_min?_iff (fun a b c => le_min_iff) ht).mp le_rfl
      have := hle r1.timestamp
        (List.mem_map_of_mem _ (List.mem_filter.mpr ⟨hr1, hwin1⟩))
      omega
    · simp [check_rate_limit, ht, hr0t]

/-- Concrete instance of `check_rate_limit_reset_time` at a denied client with
one in-window record: the reset time equals that record timestamp plus
the window. -/
theorem check_rate_limit_reset_time_witness :
    ∃ r0 ∈ [(⟨"c", 10300, 1000⟩ : UsageRecord)], in_window 1500 "c" r0 = true ∧
      (∀ r1 ∈ [(⟨"c", 10300, 1000⟩ : UsageRecord)], in_window 1500 "c" r1 = true →
          r0.timestamp ≤ r1.timestamp) ∧
      (check_rate_limit (.ok [⟨"c", 10300, 1000⟩]) "c" 1500).reset_time =
        r0.timestamp + RATE_LIMIT_WINDOW_SECONDS :=
  (check_rate_limit_reset_time [⟨"c", 10300, 1000⟩] "c" 1500 (by decide)).2
    ⟨"c", 10300, 1000⟩ (by decide) (by decide)

end RateLimiter

/-!
The `Merge` namespace embeds the explicit/inferred preference merge done
inline in the `/recommend` handler of `app/main.py`.  A Python dict with
integer weights iterates its items in insertion order, so `inferred`
categories are modelled as association lists of `(tag, weight)` pairs.
-/

namespace Merge

/-- Explicit preferences as returned by `get_preferences` (or the empty
default used when the user has none). -/
structure ExplicitPrefs where
  interests : List String
  vibe : List String
deriving DecidableEq, Repr

/-- Inferred preferences as returned by `get_inferred`: per category, tags
with integer weights, in dict insertion order. -/
structure InferredPrefs where
  interests : List (String × Nat)
  vibe : List (String × Nat)
deriving DecidableEq, Repr

/-- Embeds the comprehension
`[key for key, weight in inferred[cat].items() for _ in range(weight)]`. -/
def weighted_tags (m : List (String × Nat)) : List String :=
  m.flatMap (fun kw => List.replicate kw.2 kw.1)

/-- Embeds the `merged_preferences` dict built in the `/recommend` handler:
explicit tags first, then each inferred tag repeated `weight` times. -/
def merged_preferences (explicit : ExplicitPrefs) (inferred : InferredPrefs) :
    ExplicitPrefs :=
  { interests := explicit.interests ++ weighted_tags inferred.interests,
    vibe := explicit.vibe ++ weighted_tags inferred.vibe }

/-- A tag that is not a key of the association list never occurs in its
weighted expansion. -/
theorem count_weighted_tags_of_not_key (m : List (String × Nat)) (t : String)
    (h : ∀ p ∈ m, p.1 ≠ t) : (weighted_tags m).count t = 0 := by
  induction m with
  | nil => rfl
  | cons p rest ih =>
    have hp : p.1 ≠ t := h p (List.mem_cons_self p rest)
    have hrest : (weighted_tags rest).count t = 0 :=
      ih fun q hq => h q (List.mem_cons_of_mem p hq)
    have hcons : weighted_tags (p :: rest) =
        List.replicate p.2 p.1 ++ weighted_tags rest := rfl
    rw [hcons, List.count_append, hrest, List.count_replicate]
    simp [hp]

/-- With no repeated keys, the weighted expansion contains a key with weight
`w` exactly `w` times. -/
theorem count_weighted_tags (m : List (String × Nat)) (t : String) (w : Nat)
    (hnd : (m.map Prod.fst).Nodup) (hmem : (t, w) ∈ m) :
    (weighted_tags m).count t = w := by
  induction m with
  | nil => simp at hmem
  | cons p rest ih =>
    have hcons : weighted_tags (p :: rest) =
        List.replicate p.2 p.1 ++ weighted_tags rest := rfl
    have hnd' : (p.1 :: rest.map Prod.fst).Nodup := by simpa using hnd
    have hnotin := (List.nodup_cons.mp hnd').1
    have hndrest := (List.nodup_cons.mp hnd').2
    rcases List.mem_cons.mp hmem with heq | htail
    · have hpt : p = (t, w) := heq.symm
      subst hpt
      have hkeys : ∀ q ∈ rest, q.1 ≠ t := by
        intro q hq hqt
        have hq1 : q.1 ∈ rest.map Prod.fst := List.mem_map_of_mem Prod.fst hq
        rw [hqt] at hq1
        exact hnotin hq1
      have h0 := count_weighted_tags_of_not_key rest t hkeys
      rw [hcons, List.count_append, h0, List.count_replicate]
      simp
    · have hp : p.1 ≠ t := by
        intro hpt
        have : t ∈ rest.map Prod.fst := List.mem_map_of_mem Prod.fst htail
        exact hnotin (hpt ▸ this)
      have hrec := ih hndrest htail
      rw [hcons, List.count_append, hrec, List.count_replicate]
      simp [hp]

end Merge

namespace Merge

/-- C2: for each category the merged preference list starts with the
explicit tags unchanged and in order, followed by each inferred tag repeated
exactly its weight many times; empty inferred data leaves the explicit list
unchanged, a key with weight `w` and unrepeated keys occurs `w` more times
than in the explicit list, and Scenario A gives `["coffee", "tea", "tea"]`. -/
theorem merged_preferences_spec :
    (∀ (e : ExplicitPrefs) (i : InferredPrefs),
        (merged_preferences e i).interests.take e.interests.length = e.interests ∧
        (merged_preferences e i).vibe.take e.vibe.length = e.vibe ∧
        (merged_preferences e i).interests =
          e.interests ++ weighted_tags i.interests ∧
        (merged_preferences e i).vibe = e.vibe ++ weighted_tags i.vibe) ∧
    (∀ (e : ExplicitPrefs) (i : InferredPrefs),
        i.interests = [] → (merged_preferences e i).interests = e.interests) ∧
    (∀ (e : ExplicitPrefs) (i : InferredPrefs),
        i.vibe = [] → (merged_preferences e i).vibe = e.vibe) ∧
    (∀ (e : ExplicitPrefs) (i : InferredPrefs) (t : String) (w : Nat),
        (i.interests.map Prod.fst).Nodup → (t, w) ∈ i.interests →
        (merged_preferences e i).interests.count t = e.interests.count t + w) ∧
    (∀ (e : ExplicitPrefs) (i : InferredPrefs) (t : String) (w : Nat),
        (i.vibe.map Prod.fst).Nodup → (t, w) ∈ i.vibe →
        (merged_preferences e i).vibe.count t = e.vibe.count t + w) ∧
    (merged_preferences ⟨["coffee"], []⟩ ⟨[("tea", 2)], []⟩).interests =
      ["coffee", "tea", "tea"] := by
  refine ⟨fun e i => ⟨?_, ?_, rfl, rfl⟩, fun e i h => ?_, fun e i h => ?_,
    fun e i t w hnd hmem => ?_, fun e i t w hnd hmem => ?_, by decide⟩
  · simp [merged_preferences]
  · simp [merged_preferences]
  · simp [merged_preferences, h, weighted_tags]
  · simp [merged_preferences, h, weighted_tags]
  · simp [merged_preferences, count_weighted_tags i.interests t w hnd hmem]
  · simp [merged_preferences, count_weighted_tags i.vibe t w hnd hmem]

/-- Concrete instance of `merged_preferences_spec` at Scenario A: the merged
interests contain `"tea"` exactly twice more than the explicit list. -/
theorem merged_preferences_spec_witness :
    (merged_preferences ⟨["coffee"], []⟩ ⟨[("tea", 2)], []⟩).interests.count "tea" =
      (["coffee"] : List String).count "tea" + 2 :=
  merged_preferences_spec.2.2.2.1 ⟨["coffee"], []⟩ ⟨[("tea", 2)], []⟩ "tea" 2
    (by decide) (by decide)

end Merge

/-!
The `Py` namespace models the Python string operations used by
`app/retrieval.py` and `app/rate_limiter.py` character by character:
a Python string is a list of character codes, `str.lower()` lower-cases
the ASCII letters, `str.strip()` removes leading and trailing whitespace
(space, tab, newline, carriage return), and `str.split(",")` splits on
commas keeping empty segments (so the empty string splits to one empty
segment, as in Python).
-/

namespace Py

/-- A Python string, as a list of character codes. -/
abbrev PyStr := List Nat

/-- Builds a `PyStr` from a Lean string literal. -/
def pyStr (s : String) : PyStr := s.data.map Char.toNat

/-- ASCII lower-casing of one character code, as `str.lower()` does. -/
def lowerChar (c : Nat) : Nat := if 65 ≤ c ∧ c ≤ 90 then c + 32 else c

/-- `str.lower()`. -/
def lower (s : PyStr) : PyStr := s.map lowerChar

/-- The whitespace characters removed by `str.strip()` (ASCII subset). -/
def isSpaceChar (c : Nat) : Bool := decide (c = 32 ∨ c = 9 ∨ c = 10 ∨ c = 13)

/-- Removal of trailing whitespace (the right half of `str.strip()`). -/
def stripRight (s : PyStr) : PyStr := (s.reverse.dropWhile isSpaceChar).reverse

/-- `str.strip()`: removes trailing then leading whitespace. -/
def strip (s : PyStr) : PyStr := (stripRight s).dropWhile isSpaceChar

/-- `s.split(",")`: splits on commas (code 44) keeping empty segments. -/
def splitComma : PyStr → List PyStr
  | [] => [[]]
  | c :: rest =>
    match splitComma rest with
    | [] => [[]]
    | g :: gs => if c = 44 then [] :: g :: gs else (c :: g) :: gs

theorem lowerChar_lowerChar (c : Nat) : lowerChar (lowerChar c) = lowerChar c := by
  unfold lowerChar
  split_ifs <;> omega

theorem lower_lower (s : PyStr) : lower (lower s) = lower s := by
  have h : lowerChar ∘ lowerChar = lowerChar := funext lowerChar_lowerChar
  simp [lower, List.map_map, h]

theorem isSpaceChar_lowerChar (c : Nat) : isSpaceChar (lowerChar c) = isSpaceChar c := by
  unfold lowerChar isSpaceChar
  split_ifs with h
  · simp only [decide_eq_decide]
    omega
  · rfl

theorem dropWhile_idem {α : Type} (p : α → Bool) (l : List α) :
    (l.dropWhile p).dropWhile p = l.dropWhile p := by
  induction l with
  | nil => rfl
  | cons c t ih =>
    by_cases h : p c
    · simp [List.dropWhile_cons, h, ih]
    · simp [List.dropWhile_cons, h]

theorem stripRight_cons_of_ne_nil (c : Nat) (t : PyStr) (h : stripRight t ≠ []) :
    stripRight (c :: t) = c :: stripRight t := by
  have hne : t.reverse.dropWhile isSpaceChar ≠ [] := by
    intro h0
    exact h (by simp [stripRight, h0])
  have hemp : (t.reverse.dropWhile isSpaceChar).isEmpty = false := by
    simpa [List.isEmpty_iff] using hne
  unfold stripRight
  rw [List.reverse_cons, List.dropWhile_append, hemp]
  simp [stripRight, List.reverse_append]

theorem stripRight_cons_of_nil (c : Nat) (t : PyStr) (h : stripRight t = []) :
    stripRight (c :: t) = if isSpaceChar c then [] else [c] := by
  have h0 : t.reverse.dropWhile isSpaceChar = [] := by
    have := congrArg List.reverse h
    simpa [stripRight] using this
  have hemp : (t.reverse.dropWhile isSpaceChar).isEmpty = true := by
    simp [h0]
  unfold stripRight
  rw [List.reverse_cons, List.dropWhile_append, hemp]
  by_cases hc : isSpaceChar c
  · simp [List.dropWhile_cons, hc]
  · simp [List.dropWhile_cons, hc]

theorem stripRight_idem (l : PyStr) : stripRight (stripRight l) = stripRight l := by
  unfold stripRight
  rw [List.reverse_reverse, dropWhile_idem]

theorem stripRight_dropWhile (l : PyStr) :
    stripRight (l.dropWhile isSpaceChar) = (stripRight l).dropWhile isSpaceChar := by
  induction l with
  | nil => rfl
  | cons c t ih =>
    by_cases hst : stripRight t = []
    · by_cases hc : isSpaceChar c
      · rw [List.dropWhile_cons, if_pos hc, ih, stripRight_cons_of_nil c t hst]
        have ht : (stripRight t).dropWhile isSpaceChar = [] := by simp [hst]
        simp [hc, ht]
      · rw [List.dropWhile_cons, if_neg hc, stripRight_cons_of_nil c t hst]
        simp [hc, List.dropWhile_cons]
    · have hcons := stripRight_cons_of_ne_nil c t hst
      by_cases hc : isSpaceChar c
      · rw [List.dropWhile_cons, if_pos hc, ih, hcons]
        simp [List.dropWhile_cons, hc]
      · rw [List.dropWhile_cons, if_neg hc, hcons]
        have hhead : (c :: stripRight t).dropWhile isSpaceChar = c :: stripRight t := by
          simp [List.dropWhile_cons, hc]
        rw [hhead]

theorem strip_strip (l : PyStr) : strip (strip l) = strip l := by
  unfold strip
  rw [stripRight_dropWhile, stripRight_idem, dropWhile_idem]

theorem stripRight_lower (l : PyStr) : stripRight (lower l) = lower (stripRight l) := by
  have hcomp : (isSpaceChar ∘ lowerChar) = isSpaceChar := funext isSpaceChar_lowerChar
  unfold stripRight lower
  rw [← List.map_reverse, List.dropWhile_map, hcomp, List.map_reverse]

theorem strip_lower (l : PyStr) : strip (lower l) = lower (strip l) := by
  have hcomp : (isSpaceChar ∘ lowerChar) = isSpaceChar := funext isSpaceChar_lowerChar
  unfold strip
  rw [stripRight_lower]
  unfold lower
  rw [List.dropWhile_map, hcomp]

theorem strip_lower_strip (v : PyStr) :
    strip (lower (strip v)) = lower (strip v) := by
  rw [strip_lower, strip_strip]

theorem lower_ne_nil (v : PyStr) (h : v ≠ []) : lower v ≠ [] := by
  simpa [lower] using h

end Py

/-!
The `Retrieval` namespace embeds `app/retrieval.py`.  Collaborator reads
(the Supabase gifts query and the feedback read inside `get_feedback`) are
modelled as `Except` values; the database-level filters of the gifts query
(price cap, `in_stock`, limit 50) are part of the store query and are
absorbed into the modelled store contents.  Scores mix integer heuristic
points with the float semantic score; both are modelled as exact rationals,
and Python's `round(x, 2)` is modelled as exact rounding to the nearest
hundredth.
-/

namespace Retrieval

open Py

/-- A raw list-or-string tag field value as it comes out of the database:
a list of strings, a single delimited string, or anything else. -/
inductive PyValue where
  | vlist : List PyStr → PyValue
  | vstr : PyStr → PyValue
  | vother : PyValue
deriving DecidableEq

/-- Embeds `normalize_list_field`: list inputs are lower-cased and trimmed
element-wise; string inputs are split on commas, blank segments dropped,
the rest lower-cased and trimmed; any other shape gives the empty list. -/
def normalize_list_field (value : PyValue) : List PyStr :=
  match value with
  | .vlist l => l.map (fun v => lower (strip v))
  | .vstr s => ((splitComma s).filter (fun v => decide (strip v ≠ []))).map
      (fun v => lower (strip v))
  | .vother => []

end Retrieval

namespace Retrieval

open Py

/-- C7 counterexample: `normalize_list_field` does not deduplicate and does
not drop blank elements of a list input — on the list `[" A ", "a", ""]` it
returns `["a", "a", ""]`, which contains a duplicate and an empty string. -/
theorem normalize_list_field_counterexample :
    normalize_list_field (.vlist [pyStr " A ", pyStr "a", pyStr ""]) =
      [pyStr "a", pyStr "a", []] ∧
    ¬ (normalize_list_field (.vlist [pyStr " A ", pyStr "a", pyStr ""])).Nodup ∧
    [] ∈ normalize_list_field (.vlist [pyStr " A ", pyStr "a", pyStr ""]) := by
  refine ⟨by decide, ?_, by decide⟩
  intro h
  have := h
  rw [show normalize_list_field (.vlist [pyStr " A ", pyStr "a", pyStr ""]) =
      [pyStr "a", pyStr "a", []] from by decide] at this
  simp [pyStr] at this

/-- C7 as amended: every element produced by `normalize_list_field` is
lower-cased and trimmed; string inputs are split on commas with blank
segments dropped (so no empty strings come from a string input); any value
that is neither list nor string yields the empty list; list inputs are
mapped element-wise, keeping duplicates and blanks. -/
theorem normalize_list_field_spec (value : PyValue) :
    (∀ x ∈ normalize_list_field value, lower x = x ∧ strip x = x) ∧
    (∀ s, value = .vstr s → ∀ x ∈ normalize_list_field value, x ≠ []) ∧
    (value = .vother → normalize_list_field value = []) ∧
    (∀ l, value = .vlist l →
        normalize_list_field value = l.map (fun v => lower (strip v))) := by
  refine ⟨?_, ?_, ?_, ?_⟩
  · intro x hx
    cases value with
    | vlist l =>
      obtain ⟨v, _, hv⟩ := List.mem_map.mp hx
      refine hv ▸ ⟨lower_lower (strip v), strip_lower_strip v⟩
    | vstr s =>
      obtain ⟨v, _, hv⟩ := List.mem_map.mp hx
      refine hv ▸ ⟨lower_lower (strip v), strip_lower_strip v⟩
    | vother => simp [normalize_list_field] at hx
  · rintro s rfl x hx
    obtain ⟨v, hvmem, hv⟩ := List.mem_map.mp hx
    have hvne : strip v ≠ [] := by
      have := (List.mem_filter.mp hvmem).2
      simpa using this
    exact hv ▸ lower_ne_nil (strip v) hvne
  · rintro rfl
    rfl
  · rintro l rfl
    rfl

/-- Concrete instance of `normalize_list_field_spec`: the element produced
from `" A "` is lower-cased and trimmed. -/
theorem normalize_list_field_spec_witness :
    lower (pyStr "a") = pyStr "a" ∧ strip (pyStr "a") = pyStr "a" :=
  (normalize_list_field_spec (.vlist [pyStr " A "])).1 (pyStr "a") (by decide)

/-- A gift row as returned by the Supabase query, before tag normalization. -/
structure RawGift where
  name : PyStr
  description : PyStr
  interests : PyValue
  vibe : PyValue
  categories : PyValue
  occasions : PyValue
deriving DecidableEq

/-- A gift after step 3 of `retrieve_gifts` normalized its four tag fields. -/
structure Gift where
  name : PyStr
  description : PyStr
  interests : List PyStr
  vibe : List PyStr
  categories : List PyStr
  occasions : List PyStr
deriving DecidableEq

/-- Step 3 of `retrieve_gifts`: normalize the four tag fields of a row. -/
def normalize_gift (g : RawGift) : Gift :=
  { name := g.name, description := g.description,
    interests := normalize_list_field g.interests,
    vibe := normalize_list_field g.vibe,
    categories := normalize_list_field g.categories,
    occasions := normalize_list_field g.occasions }

/-- The preferences dict handed to `retrieve_gifts`. -/
structure Prefs where
  interests : List PyStr
  vibe : List PyStr
deriving DecidableEq

/-- Embeds `normalize_preferences`: a missing (falsy) dict becomes empty
lists, otherwise both tag lists are lower-cased (not trimmed). -/
def normalize_preferences (preferences : Option Prefs) : Prefs :=
  match preferences with
  | none => { interests := [], vibe := [] }
  | some p => { interests := p.interests.map lower, vibe := p.vibe.map lower }

/-- One row of the feedback table for the requesting user, as returned by
`get_feedback` in `app/persistence.py`. -/
structure FeedbackEntry where
  gift_name : PyStr
  liked : Bool
deriving DecidableEq

/-- Embeds `get_feedback` of `app/persistence.py`: the feedback rows for the
user, or the empty list when the read raises (its handler returns `[]`). -/
def get_feedback (store : Except Unit (List FeedbackEntry)) : List FeedbackEntry :=
  match store with
  | .error _ => []
  | .ok rows => rows

/-- The dict returned by `compute_score`: total plus breakdown. -/
structure ScoreData where
  total : Int
  interest_match : Nat
  vibe_match : Nat
  feedback : Int
deriving DecidableEq

/-- Embeds `compute_score`: set intersections of tags against preferences
(3 points per interest, 2 per vibe), plus +4 or -6 per matching feedback
entry when a user id is given. -/
def compute_score (gift : Gift) (preferences : Prefs) (user_id : Option PyStr)
    (store : Except Unit (List FeedbackEntry)) : ScoreData :=
  let interest_matches := gift.interests.toFinset ∩ preferences.interests.toFinset
  let vibe_matches := gift.vibe.toFinset ∩ preferences.vibe.toFinset
  let feedback_score : Int :=
    match user_id with
    | none => 0
    | some _ =>
        (((get_feedback store).filter (fun e => decide (e.gift_name = gift.name))).map
          (fun e => if e.liked then (4 : Int) else -6)).sum
  { total := (interest_matches.card : Int) * 3 + (vibe_matches.card : Int) * 2 +
      feedback_score,
    interest_match := interest_matches.card,
    vibe_match := vibe_matches.card,
    feedback := feedback_score }

/-- Embeds `semantic_score_from_query_match`: keyword containment checks
against name, description, categories, interests and occasions. -/
def semantic_score_from_query_match (gift : Gift) (query : PyStr) : ℚ :=
  let query_lower := lower query
  (if query_lower <:+: lower gift.name then (5 : ℚ) else 0) +
  (if query_lower <:+: lower gift.description then (3 : ℚ) else 0) +
  (if gift.categories.any (fun cat => decide (query_lower <:+: lower cat))
      then (4 : ℚ) else 0) +
  (if gift.interests.any (fun i => decide (query_lower <:+: lower i))
      then (3 : ℚ) else 0) +
  (if gift.occasions.any (fun o => decide (query_lower <:+: lower o))
      then (2 : ℚ) else 0)

end Retrieval

namespace Retrieval

open Py

/-- Deduplicating a list does not change the finite set of its elements. -/
theorem list_toFinset_dedup {α : Type} [DecidableEq α] (l : List α) :
    l.dedup.toFinset = l.toFinset := by
  ext a
  simp [List.mem_toFinset, List.mem_dedup]

/-- C3: the raw score of a candidate is `interest_match * 3 + vibe_match * 2
+ feedback_delta + relevance_component`, where the match counts are
set-intersection cardinalities (so duplicates in the merged preference list
do not raise the count: deduplicating the preference lists leaves the score
unchanged, and Scenario B scores interest_match 2 for a total contribution
of 6) and the feedback delta sums +4 per liked and -6 per disliked entry
whose name matches the candidate. -/
theorem compute_score_formula :
    (∀ (g : Gift) (prefs : Prefs) (uid : PyStr) (fbl : List FeedbackEntry)
        (query : PyStr),
        ((compute_score g prefs (some uid) (.ok fbl)).total : ℚ) +
            semantic_score_from_query_match g query =
          3 * ((g.interests.toFinset ∩ prefs.interests.toFinset).card : ℚ) +
          2 * ((g.vibe.toFinset ∩ prefs.vibe.toFinset).card : ℚ) +
          ((((fbl.filter (fun e => decide (e.gift_name = g.name))).map
              (fun e => if e.liked then (4 : Int) else -6)).sum : Int) : ℚ) +
          semantic_score_from_query_match g query) ∧
    (∀ (g : Gift) (prefs : Prefs) (uid : Option PyStr)
        (store : Except Unit (List FeedbackEntry)),
        compute_score g ⟨prefs.interests.dedup, prefs.vibe.dedup⟩ uid store =
          compute_score g prefs uid store) ∧
    (compute_score
        ⟨pyStr "Mug", [], [pyStr "coffee", pyStr "tea"], [], [], []⟩
        ⟨[pyStr "coffee", pyStr "tea", pyStr "tea"], []⟩ none
        (.ok [])).interest_match = 2 ∧
    (compute_score
        ⟨pyStr "Mug", [], [pyStr "coffee", pyStr "tea"], [], [], []⟩
        ⟨[pyStr "coffee", pyStr "tea", pyStr "tea"], []⟩ none
        (.ok [])).total = 6 := by
  refine ⟨fun g prefs uid fbl query => ?_, fun g prefs uid store => ?_,
    by decide, by decide⟩
  · simp only [compute_score, get_feedback]
    push_cast
    ring
  · simp [compute_score, list_toFinset_dedup]

end Retrieval

namespace Retrieval

/-- Folding `min` only goes down: the fold is at most the seed. -/
theorem foldl_min_le_init {α : Type} [LinearOrder α] (l : List α) (a : α) :
    l.foldl min a ≤ a := by
  induction l generalizing a with
  | nil => exact le_rfl
  | cons c t ih => exact le_trans (ih (min a c)) (min_le_left a c)

/-- The fold of `min` is a lower bound of the list. -/
theorem foldl_min_le_mem {α : Type} [LinearOrder α] (l : List α) (a : α) :
    ∀ x ∈ l, l.foldl min a ≤ x := by
  induction l generalizing a with
  | nil => intro x hx; simp at hx
  | cons c t ih =>
    intro x hx
    rcases List.mem_cons.mp hx with rfl | hx
    · exact le_trans (foldl_min_le_init t (min a x)) (min_le_right a x)
    · exact ih (min a c) x hx

/-- The fold of `min` is the seed or a member of the list. -/
theorem foldl_min_mem {α : Type} [LinearOrder α] (l : List α) (a : α) :
    l.foldl min a = a ∨ l.foldl min a ∈ l := by
  induction l generalizing a with
  | nil => exact Or.inl rfl
  | cons c t ih =>
    rcases ih (min a c) with h | h
    · rcases min_choice a c with hm | hm
      · exact Or.inl (by rw [List.foldl_cons, h, hm])
      · exact Or.inr (by rw [List.foldl_cons, h, hm]; exact List.mem_cons_self c t)
    · exact Or.inr (List.mem_cons_of_mem c h)

/-- Folding `max` only goes up: the fold is at least the seed. -/
theorem le_foldl_max_init {α : Type} [LinearOrder α] (l : List α) (a : α) :
    a ≤ l.foldl max a := by
  induction l generalizing a with
  | nil => exact le_rfl
  | cons c t ih => exact le_trans (le_max_left a c) (ih (max a c))

/-- The fold of `max` is an upper bound of the list. -/
theorem foldl_max_ge_mem {α : Type} [LinearOrder α] (l : List α) (a : α) :
    ∀ x ∈ l, x ≤ l.foldl max a := by
  induction l generalizing a with
  | nil => intro x hx; simp at hx
  | cons c t ih =>
    intro x hx
    rcases List.mem_cons.mp hx with rfl | hx
    · exact le_trans (le_max_right a x) (le_foldl_max_init t (max a x))
    · exact ih (max a c) x hx

/-- The fold of `max` is the seed or a member of the list. -/
theorem foldl_max_mem {α : Type} [LinearOrder α] (l : List α) (a : α) :
    l.foldl max a = a ∨ l.foldl max a ∈ l := by
  induction l generalizing a with
  | nil => exact Or.inl rfl
  | cons c t ih =>
    rcases ih (max a c) with h | h
    · rcases max_choice a c with hm | hm
      · exact Or.inl (by rw [List.foldl_cons, h, hm])
      · exact Or.inr (by rw [List.foldl_cons, h, hm]; exact List.mem_cons_self c t)
    · exact Or.inr (List.mem_cons_of_mem c h)

/-- Python `min(scores)` on a non-empty list (0 as an unused default). -/
def list_min (l : List ℚ) : ℚ :=
  match l with
  | [] => 0
  | a :: t => t.foldl min a

/-- Python `max(scores)` on a non-empty list (0 as an unused default). -/
def list_max (l : List ℚ) : ℚ :=
  match l with
  | [] => 0
  | a :: t => t.foldl max a

theorem list_min_le (l : List ℚ) : ∀ x ∈ l, list_min l ≤ x := by
  cases l with
  | nil => intro x hx; simp at hx
  | cons a t =>
    intro x hx
    rcases List.mem_cons.mp hx with rfl | hx
    · exact foldl_min_le_init t x
    · exact foldl_min_le_mem t a x hx

theorem le_list_max (l : List ℚ) : ∀ x ∈ l, x ≤ list_max l := by
  cases l with
  | nil => intro x hx; simp at hx
  | cons a t =>
    intro x hx
    rcases List.mem_cons.mp hx with rfl | hx
    · exact le_foldl_max_init t x
    · exact foldl_max_ge_mem t a x hx

theorem list_min_mem (l : List ℚ) (h : l ≠ []) : list_min l ∈ l := by
  cases l with
  | nil => exact absurd rfl h
  | cons a t =>
    rcases foldl_min_mem t a with hm | hm
    · show t.foldl min a ∈ a :: t
      rw [hm]
      exact List.mem_cons_self a t
    · exact List.mem_cons_of_mem a hm

theorem list_max_mem (l : List ℚ) (h : l ≠ []) : list_max l ∈ l := by
  cases l with
  | nil => exact absurd rfl h
  | cons a t =>
    rcases foldl_max_mem t a with hm | hm
    · show t.foldl max a ∈ a :: t
      rw [hm]
      exact List.mem_cons_self a t
    · exact List.mem_cons_of_mem a hm

/-- Python `round(x, 2)` modelled as exact rounding to the nearest
hundredth. -/
def round2 (q : ℚ) : ℚ := ((round (q * 100) : ℤ) : ℚ) / 100

theorem round2_mono {x y : ℚ} (h : x ≤ y) : round2 x ≤ round2 y := by
  have hr : round (x * 100) ≤ round (y * 100) := by
    rw [round_eq, round_eq]
    exact Int.floor_le_floor (by linarith)
  have hq : ((round (x * 100) : ℤ) : ℚ) ≤ ((round (y * 100) : ℤ) : ℚ) := by
    exact_mod_cast hr
  unfold round2
  linarith

theorem round2_bounds {x : ℚ} (h1 : (0.55 : ℚ) ≤ x) (h2 : x ≤ (0.95 : ℚ)) :
    (0.55 : ℚ) ≤ round2 x ∧ round2 x ≤ (0.95 : ℚ) := by
  have e1 : round2 (0.55 : ℚ) = (0.55 : ℚ) := by
    norm_num [round2, round_eq]
  have e2 : round2 (0.95 : ℚ) = (0.95 : ℚ) := by
    norm_num [round2, round_eq]
  exact ⟨e1 ▸ round2_mono h1, e2 ▸ round2_mono h2⟩

/-- Embeds `compute_relative_confidences`: empty in, empty out; all-equal
batches get the fixed 0.6; otherwise min-max rescaling into
`0.55 + normalized * 0.4`, rounded to two decimals. -/
def compute_relative_confidences (scores : List ℚ) : List ℚ :=
  if scores = [] then []
  else
    let min_score := list_min scores
    let max_score := list_max scores
    if min_score = max_score then scores.map (fun _ => (0.6 : ℚ))
    else scores.map (fun s =>
      round2 ((0.55 : ℚ) + (s - min_score) / (max_score - min_score) * 0.4))

end Retrieval

namespace Retrieval

/-- C4: for a non-empty batch of raw scores (negative scores included,
nothing clamped): every output confidence lies in `[0.55, 0.95]`; an
all-equal batch maps every score to exactly 0.6; otherwise each confidence
is the min-max rescaling `0.55 + (s - min)/(max - min) * 0.4` rounded to two
decimal places. -/
theorem compute_relative_confidences_spec (scores : List ℚ) (hne : scores ≠ []) :
    (∀ c ∈ compute_relative_confidences scores, (0.55 : ℚ) ≤ c ∧ c ≤ (0.95 : ℚ)) ∧
    ((∀ a ∈ scores, ∀ b ∈ scores, a = b) →
        compute_relative_confidences scores = scores.map (fun _ => (0.6 : ℚ))) ∧
    ((∃ a ∈ scores, ∃ b ∈ scores, a ≠ b) →
        compute_relative_confidences scores = scores.map (fun s =>
          round2 ((0.55 : ℚ) +
            (s - list_min scores) / (list_max scores - list_min scores) * 0.4))) := by
  refine ⟨?_, ?_, ?_⟩
  · intro c hc
    by_cases heq : list_min scores = list_max scores
    · rw [compute_relative_confidences, if_neg hne, if_pos heq] at hc
      obtain ⟨s, _, hs⟩ := List.mem_map.mp hc
      rw [← hs]
      norm_num
    · rw [compute_relative_confidences, if_neg hne, if_neg heq] at hc
      obtain ⟨s, hsmem, hs⟩ := List.mem_map.mp hc
      have hms : list_min scores ≤ s := list_min_le scores s hsmem
      have hsM : s ≤ list_max scores := le_list_max scores s hsmem
      have hlt : list_min scores < list_max scores :=
        lt_of_le_of_ne (le_trans hms hsM) heq
      have h0 : 0 ≤ (s - list_min scores) / (list_max scores - list_min scores) :=
        div_nonneg (by linarith) (by linarith)
      have h1 : (s - list_min scores) / (list_max scores - list_min scores) ≤ 1 :=
        (div_le_one (by linarith)).mpr (by linarith)
      have hlo : (0.55 : ℚ) ≤ (0.55 : ℚ) +
          (s - list_min scores) / (list_max scores - list_min scores) * 0.4 := by
        nlinarith
      have hhi : (0.55 : ℚ) +
          (s - list_min scores) / (list_max scores - list_min scores) * 0.4 ≤
            (0.95 : ℚ) := by
        nlinarith
      exact hs ▸ round2_bounds hlo hhi
  · intro hall
    have heq : list_min scores = list_max scores :=
      hall (list_min scores) (list_min_mem scores hne)
        (list_max scores) (list_max_mem scores hne)
    rw [compute_relative_confidences, if_neg hne, if_pos heq]
  · rintro ⟨a, ha, b, hb, hab⟩
    have heq : list_min scores ≠ list_max scores := by
      intro h
      have ha2 : a = list_min scores :=
        le_antisymm (h ▸ le_list_max scores a ha) (list_min_le scores a ha)
      have hb2 : b = list_min scores :=
        le_antisymm (h ▸ le_list_max scores b hb) (list_min_le scores b hb)
      exact hab (ha2.trans hb2.symm)
    rw [compute_relative_confidences, if_neg hne, if_neg heq]

/-- Concrete instance of `compute_relative_confidences_spec`: the batch
`[10, -5, 10]` (a negative score included) produces the confidence 0.95,
inside the bounds. -/
theorem compute_relative_confidences_spec_witness :
    (0.55 : ℚ) ≤ (0.95 : ℚ) ∧ (0.95 : ℚ) ≤ (0.95 : ℚ) :=
  (compute_relative_confidences_spec [10, -5, 10] (List.cons_ne_nil 10 [-5, 10])).1
    (0.95 : ℚ)
    (by
      have h : compute_relative_confidences [10, -5, 10] = [0.95, 0.55, 0.95] := by
        simp only [compute_relative_confidences, list_min, list_max]
        norm_num [round2, round_eq]
        intro h
        cases h
      rw [h]
      norm_num)

end Retrieval

namespace Retrieval

open Py

/-- Embeds `build_ranking_reasons`: one templated reason per positive
signal, with a fallback when none fires. -/
def build_ranking_reasons (score_data : ScoreData) : List PyStr :=
  let reasons :=
    (if 0 < score_data.interest_match then [pyStr "Matches your interests"] else []) ++
    (if 0 < score_data.vibe_match then [pyStr "Fits your preferred vibe"] else []) ++
    (if 0 < score_data.feedback then [pyStr "You liked something similar before"] else [])
  if reasons = [] then [pyStr "Relevant to your search"] else reasons

/-- One entry of the `scored` list built in step 4 of `retrieve_gifts`. -/
structure ScoredGift where
  gift : Gift
  score : ℚ
  ranking_reasons : List PyStr
deriving DecidableEq

/-- Step 4 of `retrieve_gifts` for one gift: heuristic total plus semantic
score, with ranking reasons attached. -/
def score_gift (preferences : Prefs) (user_id : Option PyStr)
    (store : Except Unit (List FeedbackEntry)) (query : PyStr) (g : Gift) :
    ScoredGift :=
  let score_data := compute_score g preferences user_id store
  { gift := g,
    score := (score_data.total : ℚ) + semantic_score_from_query_match g query,
    ranking_reasons := build_ranking_reasons score_data }

/-- The comparison behind step 5,
`scored.sort(key=lambda g: g["score"], reverse=True)`: descending by score. -/
def score_desc (a b : ScoredGift) : Prop := b.score ≤ a.score

instance : DecidableRel score_desc :=
  fun a b => inferInstanceAs (Decidable (b.score ≤ a.score))

instance : IsTotal ScoredGift score_desc := ⟨fun a b => le_total b.score a.score⟩

instance : IsTrans ScoredGift score_desc := ⟨fun _ _ _ h1 h2 => le_trans h2 h1⟩

/-- Step 5: Python's `list.sort` is stable, so the descending sort is
modelled by insertion sort over `score_desc` (stability is proved in
`retrieve_gifts_ranking`). -/
def sort_scored (l : List ScoredGift) : List ScoredGift :=
  l.insertionSort score_desc

/-- Embeds `retrieve_gifts`: a failing gifts query returns `[]` (as does an
empty result set), otherwise tag fields are normalized, every gift is
scored, the batch is sorted descending by score, relative confidences are
attached pairwise, and the top `k` entries are returned. -/
def retrieve_gifts (gifts_store : Except Unit (List RawGift))
    (feedback_store : Except Unit (List FeedbackEntry)) (query : PyStr)
    (user_id : Option PyStr) (preferences : Option Prefs) (k : Nat) :
    List (ScoredGift × ℚ) :=
  let prefs := normalize_preferences preferences
  match gifts_store with
  | .error _ => []
  | .ok rows =>
    if rows = [] then []
    else
      let gifts := rows.map normalize_gift
      let scored := gifts.map (score_gift prefs user_id feedback_store query)
      let sorted := sort_scored scored
      let confidences := compute_relative_confidences (sorted.map (fun g => g.score))
      (sorted.zip confidences).take k

/-- Inserting into a list keeps the subsequence of any fixed score intact:
skipped elements all have strictly larger score. -/
theorem orderedInsert_filter_eq_score (x : ScoredGift) (l : List ScoredGift) (c : ℚ) :
    (l.orderedInsert score_desc x).filter (fun g => decide (g.score = c)) =
      if x.score = c then x :: l.filter (fun g => decide (g.score = c))
      else l.filter (fun g => decide (g.score = c)) := by
  induction l with
  | nil =>
    by_cases hx : x.score = c <;> simp [hx]
  | cons y t ih =>
    by_cases hr : score_desc x y
    · simp only [List.orderedInsert, if_pos hr]
      by_cases hx : x.score = c <;> simp [List.filter_cons, hx]
    · simp only [List.orderedInsert, if_neg hr]
      have hxy : x.score < y.score := not_le.mp hr
      rw [List.filter_cons, ih]
      by_cases hx : x.score = c
      · have hy : y.score ≠ c := by
          rw [← hx]
          exact ne_of_gt hxy
        simp [hx, hy, List.filter_cons]
      · by_cases hyc : y.score = c <;> simp [hx, hyc, List.filter_cons]

/-- The stable sort leaves the relative order of equal scores unchanged:
filtering any fixed score out of the sorted batch gives the same list as
filtering the input. -/
theorem sort_scored_stable_on_score (l : List ScoredGift) (c : ℚ) :
    (sort_scored l).filter (fun g => decide (g.score = c)) =
      l.filter (fun g => decide (g.score = c)) := by
  induction l with
  | nil => rfl
  | cons x t ih =>
    have hstep : sort_scored (x :: t) =
        (sort_scored t).orderedInsert score_desc x := rfl
    rw [hstep, orderedInsert_filter_eq_score, List.filter_cons]
    by_cases hx : x.score = c <;> simp [hx, ih]

/-- The smallest score of a non-empty batch is at most the largest. -/
theorem list_min_le_list_max (l : List ℚ) (h : l ≠ []) : list_min l ≤ list_max l :=
  le_trans (le_refl (list_min l)) (le_list_max l (list_min l) (list_min_mem l h))

/-- Zipping a list with a mapped copy of itself pairs each element with its
image. -/
theorem zip_self_map {α β : Type} (l : List α) (f : α → β) :
    l.zip (l.map f) = l.map (fun x => (x, f x)) := by
  induction l with
  | nil => rfl
  | cons a t ih => simp [ih]

/-- Attaching batch confidences to a batch that is sorted descending by
score gives pairs that are descending in both score and confidence. -/
theorem pairwise_zip_confidences (l : List ScoredGift)
    (hs : List.Pairwise score_desc l) :
    List.Pairwise (fun a b : ScoredGift × ℚ => b.1.score ≤ a.1.score ∧ b.2 ≤ a.2)
      (l.zip (compute_relative_confidences (l.map (fun g => g.score)))) := by
  rcases l with _ | ⟨a, t⟩
  · simp
  have hne : (a :: t).map (fun g => g.score) ≠ [] := by simp
  by_cases heq : list_min ((a :: t).map (fun g => g.score)) =
      list_max ((a :: t).map (fun g => g.score))
  · rw [compute_relative_confidences, if_neg hne, if_pos heq, List.map_map,
      zip_self_map, List.pairwise_map]
    exact hs.imp (fun h => ⟨h, le_rfl⟩)
  · rw [compute_relative_confidences, if_neg hne, if_neg heq, List.map_map,
      zip_self_map, List.pairwise_map]
    have hlt : list_min ((a :: t).map (fun g => g.score)) <
        list_max ((a :: t).map (fun g => g.score)) :=
      lt_of_le_of_ne (list_min_le_list_max _ hne) heq
    refine hs.imp (fun {x y} h => ⟨h, ?_⟩)
    refine round2_mono ?_
    have hdiv : (y.score - list_min ((a :: t).map (fun g => g.score))) /
        (list_max ((a :: t).map (fun g => g.score)) -
          list_min ((a :: t).map (fun g => g.score))) ≤
        (x.score - list_min ((a :: t).map (fun g => g.score))) /
        (list_max ((a :: t).map (fun g => g.score)) -
          list_min ((a :: t).map (fun g => g.score))) :=
      (div_le_div_right (by linarith)).mpr (by
        have hxy : y.score ≤ x.score := h
        linarith)
    nlinarith [hdiv]

end Retrieval

namespace Retrieval

open Py

/-- C5: pipeline results are ordered descending by raw score with ties kept
in original retrieval order (the sort is stable: filtering any fixed score
value out of the sorted batch returns those entries in input order, and the
sorted batch is a permutation of the input), and attaching confidences
never changes that ordering: along the final result list both score and
confidence are non-increasing. -/
theorem retrieve_gifts_ranking :
    (∀ (rows : List RawGift) (feedback_store : Except Unit (List FeedbackEntry))
        (query : PyStr) (user_id : Option PyStr) (preferences : Option Prefs)
        (k : Nat),
        List.Pairwise (fun a b : ScoredGift × ℚ => b.1.score ≤ a.1.score ∧ b.2 ≤ a.2)
          (retrieve_gifts (.ok rows) feedback_store query user_id preferences k)) ∧
    (∀ l : List ScoredGift, List.Pairwise score_desc (sort_scored l)) ∧
    (∀ l : List ScoredGift, (sort_scored l).Perm l) ∧
    (∀ (l : List ScoredGift) (c : ℚ),
        (sort_scored l).filter (fun g => decide (g.score = c)) =
          l.filter (fun g => decide (g.score = c))) := by
  refine ⟨?_, fun l => List.sorted_insertionSort score_desc l,
    fun l => List.perm_insertionSort score_desc l, sort_scored_stable_on_score⟩
  intro rows feedback_store query user_id preferences k
  rw [retrieve_gifts]
  by_cases hrows : rows = []
  · simp [hrows]
  · simp only [if_neg hrows]
    refine List.Pairwise.sublist (List.take_sublist k _) ?_
    exact pairwise_zip_confidences _ (List.sorted_insertionSort score_desc _)

/-- A concrete gift row used in the C9 counterexample. -/
def mug_raw : RawGift :=
  { name := pyStr "Mug", description := [], interests := .vlist [],
    vibe := .vlist [], categories := .vlist [], occasions := .vlist [] }

/-- C9 counterexample: a failure of the feedback read during per-candidate
scoring does not degrade the pipeline to an empty candidate list — with one
retrievable gift and a failing feedback store the pipeline still returns
that gift. -/
theorem retrieve_gifts_scoring_failure_counterexample :
    retrieve_gifts (.ok [mug_raw]) (.error ()) (pyStr "mug") (some (pyStr "u"))
      none 5 ≠ [] := by
  have h1 : ∀ s : ℚ, compute_relative_confidences [s] = [0.6] := fun s => by
    simp [compute_relative_confidences, list_min, list_max]
  simp [retrieve_gifts, sort_scored, h1]

/-- C9 as amended: a failing candidate-retrieval query degrades the
pipeline to the empty list, while a failing feedback read during scoring is
absorbed as an empty feedback history (the run is identical to one with an
empty feedback store), and the embedded pipeline is a total function — no
failure path escapes it. -/
theorem retrieve_gifts_degrades :
    (∀ (feedback_store : Except Unit (List FeedbackEntry)) (query : PyStr)
        (user_id : Option PyStr) (preferences : Option Prefs) (k : Nat),
        retrieve_gifts (.error ()) feedback_store query user_id preferences k = []) ∧
    (∀ (gifts_store : Except Unit (List RawGift)) (query : PyStr)
        (user_id : Option PyStr) (preferences : Option Prefs) (k : Nat),
        retrieve_gifts gifts_store (.error ()) query user_id preferences k =
          retrieve_gifts gifts_store (.ok []) query user_id preferences k) := by
  constructor
  · intro feedback_store query user_id preferences k
    rfl
  · intro gifts_store query user_id preferences k
    have hscore : ∀ (prefs : Prefs) (g : Gift),
        score_gift prefs user_id (.error ()) query g =
          score_gift prefs user_id (.ok []) query g := by
      intro prefs g
      rfl
    cases gifts_store with
    | error e => rfl
    | ok rows =>
      simp only [retrieve_gifts]
      rw [List.map_congr_left (fun g _ => hscore (normalize_preferences preferences) g)]

end Retrieval

/-!
The `ClientIdentity` namespace embeds `get_client_ip` of
`app/rate_limiter.py`.  FastAPI's `request.headers.get(...)` returns the
header value or `None`; Python's truthiness test `if header:` treats both
`None` and the empty string as absent.  `request.client` can be `None`, in
which case the literal string `"unknown"` is returned.
-/

namespace ClientIdentity

open Py

/-- The three client-identity signals read by `get_client_ip`. -/
structure Request where
  x_forwarded_for : Option PyStr
  x_real_ip : Option PyStr
  client_host : Option PyStr
deriving DecidableEq

/-- Embeds `get_client_ip`: first hop of a truthy `X-Forwarded-For`
(trimmed), else a truthy `X-Real-IP` (trimmed), else the transport peer
address, else the literal string `"unknown"`. -/
def get_client_ip (request : Request) : PyStr :=
  let forwarded_for := request.x_forwarded_for.getD []
  if forwarded_for ≠ [] then strip ((splitComma forwarded_for).headD [])
  else
    let real_ip := request.x_real_ip.getD []
    if real_ip ≠ [] then strip real_ip
    else
      match request.client_host with
      | some h => h
      | none => pyStr "unknown"

end ClientIdentity

namespace ClientIdentity

open Py

/-- C10 counterexample: a present-but-empty `X-Forwarded-For` header is
skipped, not used — the code answers with the `X-Real-IP` value instead of
the first (empty) forwarded entry the claim prescribes. -/
theorem get_client_ip_counterexample :
    get_client_ip ⟨some [], some (pyStr "9.9.9.9"), some (pyStr "1.1.1.1")⟩ =
      pyStr "9.9.9.9" ∧
    pyStr "9.9.9.9" ≠ strip ((splitComma ([] : PyStr)).headD []) := by decide

/-- C10 as amended: client-identity extraction is total (it is a Lean
function) and returns the trimmed first comma-separated entry of
`X-Forwarded-For` when that header is present and non-empty, else the
trimmed `X-Real-IP` when present and non-empty, else the transport peer
address when one exists, and the literal string `"unknown"` when none of
the three signals is available (so all such requests share one rate-limit
identity). -/
theorem get_client_ip_spec (request : Request) :
    (∀ s, request.x_forwarded_for = some s → s ≠ [] →
        get_client_ip request = strip ((splitComma s).headD [])) ∧
    ((request.x_forwarded_for = none ∨ request.x_forwarded_for = some []) →
      ∀ s, request.x_real_ip = some s → s ≠ [] →
        get_client_ip request = strip s) ∧
    ((request.x_forwarded_for = none ∨ request.x_forwarded_for = some []) →
      (request.x_real_ip = none ∨ request.x_real_ip = some []) →
      ∀ h, request.client_host = some h → get_client_ip request = h) ∧
    ((request.x_forwarded_for = none ∨ request.x_forwarded_for = some []) →
      (request.x_real_ip = none ∨ request.x_real_ip = some []) →
      request.client_host = none → get_client_ip request = pyStr "unknown") := by
  obtain ⟨xff, xrip, host⟩ := request
  refine ⟨?_, ?_, ?_, ?_⟩
  · rintro s rfl hne
    simp [get_client_ip, hne]
  · rintro (rfl | rfl) s rfl hne <;> simp [get_client_ip, hne]
  · rintro (rfl | rfl) (rfl | rfl) h rfl <;> simp [get_client_ip]
  · rintro (rfl | rfl) (rfl | rfl) rfl <;> simp [get_client_ip]

/-- Concrete instance of `get_client_ip_spec`: with no signals at all the
identity is the literal string `"unknown"`. -/
theorem get_client_ip_spec_witness :
    get_client_ip ⟨none, none, none⟩ = pyStr "unknown" :=
  (get_client_ip_spec ⟨none, none, none⟩).2.2.2 (Or.inl rfl) (Or.inl rfl) rfl

end ClientIdentity
